import Mathlib

/-!
Shallow embedding of `src/match.py`: a transaction/attachment reconciliation
core consisting of reference and name normalizers, field accessors, three
signal scorers, a gated composite scorer, and two symmetric best-match search
procedures.  Python floats are modelled as `ℚ`, Python `None` as `Option`,
Python dict records as structures with `Option` fields, and Python strings as
`String` (manipulated through their character lists).  All definitions are
executable so that concrete runs can be settled by `decide`.
-/

attribute [local semireducible] Rat.add Rat.mul Rat.sub Rat.inv

/-! ### Character helpers (ASCII case mapping, as in `str.upper`/`str.lower`) -/

/-- ASCII lowercase conversion of one character (`str.lower` per character). -/
def lowChar (c : Char) : Char :=
  if 65 ≤ c.toNat ∧ c.toNat ≤ 90 then Char.ofNat (c.toNat + 32) else c

/-- ASCII uppercase conversion of one character (`str.upper` per character). -/
def upChar (c : Char) : Char :=
  if 97 ≤ c.toNat ∧ c.toNat ≤ 122 then Char.ofNat (c.toNat - 32) else c

/-- Whitespace recognizer used by `str.strip`. -/
def isSpc (c : Char) : Bool :=
  c.toNat = 32 || c.toNat = 9 || c.toNat = 10 || c.toNat = 13 || c.toNat = 11 || c.toNat = 12

/-- Model of `str.strip`: remove leading and trailing whitespace. -/
def stripStr (l : List Char) : List Char :=
  ((l.dropWhile isSpc).reverse.dropWhile isSpc).reverse

theorem toNat_ofNat_valid (n : ℕ) (h : n < 55296) : (Char.ofNat n).toNat = n := by
  unfold Char.ofNat
  split
  · rfl
  · rename_i hv
    exact absurd (Or.inl h) hv

theorem lowChar_toNat_of_upper (c : Char) (h : 65 ≤ c.toNat ∧ c.toNat ≤ 90) :
    (lowChar c).toNat = c.toNat + 32 := by
  unfold lowChar
  rw [if_pos h]
  exact toNat_ofNat_valid _ (by omega)

theorem upChar_toNat_of_lower (c : Char) (h : 97 ≤ c.toNat ∧ c.toNat ≤ 122) :
    (upChar c).toNat = c.toNat - 32 := by
  unfold upChar
  rw [if_pos h]
  exact toNat_ofNat_valid _ (by omega)

/-- A character is fixed by `lowChar` iff it is not an uppercase ASCII letter. -/
theorem lowChar_fixed_iff (c : Char) : lowChar c = c ↔ ¬(65 ≤ c.toNat ∧ c.toNat ≤ 90) := by
  constructor
  · intro h hc
    have := lowChar_toNat_of_upper c hc
    rw [h] at this
    omega
  · intro h
    unfold lowChar
    rw [if_neg h]

theorem lowChar_idem (c : Char) : lowChar (lowChar c) = lowChar c := by
  rw [lowChar_fixed_iff]
  by_cases h : 65 ≤ c.toNat ∧ c.toNat ≤ 90
  · have := lowChar_toNat_of_upper c h
    omega
  · unfold lowChar
    rw [if_neg h]
    exact h

theorem lowChar_upChar_of_fixed (c : Char) (h : lowChar c = c) :
    lowChar (upChar c) = c := by
  rw [lowChar_fixed_iff] at h
  by_cases hl : 97 ≤ c.toNat ∧ c.toNat ≤ 122
  · have h1 := upChar_toNat_of_lower c hl
    have h2 : lowChar (upChar c) = Char.ofNat ((upChar c).toNat + 32) := by
      unfold lowChar
      rw [if_pos (by omega)]
    rw [h2, h1]
    have heq : c.toNat - 32 + 32 = c.toNat := by omega
    rw [heq]
    exact Char.ofNat_toNat c
  · have hu : upChar c = c := by
      unfold upChar
      rw [if_neg hl]
    rw [hu]
    rw [lowChar_fixed_iff]
    exact h

theorem lowChar_toNat_mem (c : Char) : (lowChar c).toNat = c.toNat ∨ (lowChar c).toNat = c.toNat + 32 := by
  by_cases h : 65 ≤ c.toNat ∧ c.toNat ≤ 90
  · exact Or.inr (lowChar_toNat_of_upper c h)
  · unfold lowChar
    rw [if_neg h]
    exact Or.inl rfl

theorem upChar_toNat_mem (c : Char) : (upChar c).toNat = c.toNat ∨ (c.toNat = (upChar c).toNat + 32 ∧ 97 ≤ c.toNat ∧ c.toNat ≤ 122) := by
  by_cases h : 97 ≤ c.toNat ∧ c.toNat ≤ 122
  · have := upChar_toNat_of_lower c h
    exact Or.inr ⟨by omega, h⟩
  · unfold upChar
    rw [if_neg h]
    exact Or.inl rfl

/-! ### Reference normalization (`normalize_ref`) -/

/-- Normalize reference numbers for comparison: treat the value as a string,
uppercase it, strip an optional leading `RF`, remove spaces, strip leading
zeros, lowercase, returning `none` for falsy input or an empty result. -/
def normalize_ref (x : Option String) : Option String :=
  match x with
  | none => none
  | some s =>
    if s = "" then none
    else
      let u1 := s.data.map upChar
      let u2 := if u1.take 2 = ['R', 'F'] then u1.drop 2 else u1
      let u3 := u2.filter (fun c => decide (¬ c = ' '))
      let u4 := u3.dropWhile (fun c => decide (c = '0'))
      let u5 := u4.map lowChar
      if u5 = [] then none else some u5.asString

/-! ### Name normalization (`normalize_name`) -/

/-- The Finnish legal-entity endings checked by `normalize_name`, in source order. -/
def nameSuffixes : List (List Char) := [" oyj".data, " oy".data, " ab".data, " tmi".data]

/-- One iteration of the suffix loop in `normalize_name`: if the name ends with
the given ending, cut it off and re-strip; otherwise leave the name alone. -/
def stripSuffixStep (s : List Char) (suf : List Char) : List Char :=
  if suf.isSuffixOf s then stripStr (s.take (s.length - suf.length)) else s

/-- Normalize a party name: strip, lowercase, then run the suffix loop over
`nameSuffixes`; `none` for falsy input or an empty result. -/
def normalize_name (x : Option String) : Option String :=
  match x with
  | none => none
  | some s =>
    if s = "" then none
    else
      let s1 := (stripStr s.data).map lowChar
      let s2 := nameSuffixes.foldl stripSuffixStep s1
      if s2 = [] then none else some s2.asString

example : normalize_ref (some "RF 00123") = some "123" := by decide
example : normalize_ref (some "rf123") = some "123" := by decide
example : normalize_ref (some "") = none := by decide
example : normalize_ref (some "000") = none := by decide
example : normalize_name (some "Example Company Oy") = some "example company" := by decide
example : normalize_name (some "  ACME OYJ ") = some "acme" := by decide
example : normalize_name (some "x ab oy") = some "x" := by decide
example : normalize_name (some "x oy ab") = some "x oy" := by decide
example : normalize_ref (some "rfrf1") = some "rf1" := by decide
example : normalize_ref (some "rf1") = some "1" := by decide

/-! ### Records

Python dict records become structures with `Option` fields; `attachment.get("data") or {}`
becomes `Option AttachmentData` defaulted to the all-absent record. -/

/-- The nested `data` mapping of an attachment. -/
structure AttachmentData where
  reference : Option String := none
  total_amount : Option ℚ := none
  invoicing_date : Option String := none
  receiving_date : Option String := none
  due_date : Option String := none
  issuer : Option String := none
  recipient : Option String := none
  supplier : Option String := none
deriving DecidableEq

/-- An attachment record (invoice or receipt). -/
structure Attachment where
  data : Option AttachmentData := none
deriving DecidableEq

/-- A bank transaction record. -/
structure Transaction where
  reference : Option String := none
  amount : Option ℚ := none
  date : Option String := none
  contact : Option String := none
deriving DecidableEq

/-- Model of the access `attachment.get("data") or ...`: the nested mapping, defaulted to the empty record. -/
def attData (a : Attachment) : AttachmentData :=
  a.data.getD {}

/-- Python truthiness of an optional string: `None` and `""` are falsy. -/
def truthy (x : Option String) : Bool :=
  match x with
  | none => false
  | some s => decide (¬ s = "")

/-- Python `x or y` on optional strings: keep `x` when truthy, else `y`. -/
def pyOr (x y : Option String) : Option String :=
  if truthy x then x else y

/-! ### Reference accessors -/

/-- Normalized reference of a transaction. -/
def get_transaction_reference (t : Transaction) : Option String :=
  normalize_ref t.reference

/-- Normalized reference of an attachment (via its `data` mapping). -/
def get_attachment_reference (a : Attachment) : Option String :=
  normalize_ref (attData a).reference

/-! ### Amount accessors -/

/-- Raw signed amount of a transaction. -/
def get_transaction_amount (t : Transaction) : Option ℚ :=
  t.amount

/-- Raw total amount of an attachment. -/
def get_attachment_amount (a : Attachment) : Option ℚ :=
  (attData a).total_amount

/-! ### Date parsing

Models Python `datetime.fromisoformat` on the ISO-8601 subset
`YYYY-MM-DD[(T| )HH:MM[:SS[.ffffff]][±HH:MM]]`: a datetime is a rational
number of days (`toordinal` of the date plus the day fraction) together with
the parsed UTC offset when the string carried one (an "aware" datetime);
`timedelta.days` of a naive difference is then `Int.floor`.  Malformed
strings parse to `none` (Python raises `ValueError`, caught by `parse_date`).
The rational-valued `parse_date`/`date_score` used by the matchers model the
naive fragment of the program; `date_score_checked` below additionally models
the `TypeError` that the real `date_score` raises when exactly one side
parses to an aware datetime. -/

/-- Decimal digit test. -/
def isDig (c : Char) : Bool := 48 ≤ c.toNat && c.toNat ≤ 57

/-- Numeric value of a digit list (most significant first). -/
def digitsVal (l : List Char) : ℕ :=
  l.foldl (fun n c => 10 * n + (c.toNat - 48)) 0

/-- Gregorian leap-year rule. -/
def isLeapYear (y : ℕ) : Bool :=
  y % 4 = 0 && (decide (¬ y % 100 = 0) || y % 400 = 0)

/-- Number of days in a month. -/
def daysInMonth (y m : ℕ) : ℕ :=
  if m = 2 then (if isLeapYear y then 29 else 28)
  else if m = 4 || m = 6 || m = 9 || m = 11 then 30
  else 31

/-- Days in year `y` strictly before month `m`. -/
def daysBeforeMonth (y m : ℕ) : ℕ :=
  (List.range' 1 (m - 1)).foldl (fun n k => n + daysInMonth y k) 0

/-- Proleptic Gregorian ordinal, `datetime.toordinal`: 0001-01-01 is day 1. -/
def toOrdinal (y m d : ℕ) : ℕ :=
  365 * (y - 1) + (y - 1) / 4 - (y - 1) / 100 + (y - 1) / 400 + daysBeforeMonth y m + d

/-- Parse the 10-character date part `YYYY-MM-DD` into its ordinal. -/
def parseDatePart (l : List Char) : Option ℕ :=
  match l with
  | [y1, y2, y3, y4, c1, m1, m2, c2, d1, d2] =>
    if ([y1, y2, y3, y4, m1, m2, d1, d2].all isDig) && c1 = '-' && c2 = '-' then
      let y := digitsVal [y1, y2, y3, y4]
      let m := digitsVal [m1, m2]
      let d := digitsVal [d1, d2]
      if 1 ≤ y && 1 ≤ m && m ≤ 12 && 1 ≤ d && d ≤ daysInMonth y m then
        some (toOrdinal y m d)
      else none
    else none
  | _ => none

/-- Parse the optional fractional-second digits (1 to 6 of them). -/
def parseFrac (l : List Char) : Option ℚ :=
  if l.all isDig && 1 ≤ l.length && l.length ≤ 6 then
    some (mkRat (digitsVal l) (10 ^ l.length))
  else none

/-- Parse a time-of-day suffix `HH:MM[:SS[.ffffff]]` into seconds. -/
def parseTimePart (l : List Char) : Option ℚ :=
  match l with
  | h1 :: h2 :: c1 :: m1 :: m2 :: rest =>
    if ([h1, h2, m1, m2].all isDig) && c1 = ':' then
      let h := digitsVal [h1, h2]
      let mi := digitsVal [m1, m2]
      if h ≤ 23 && mi ≤ 59 then
        let base : ℚ := 3600 * h + 60 * mi
        match rest with
        | [] => some base
        | c2 :: s1 :: s2 :: rest2 =>
          if ([s1, s2].all isDig) && c2 = ':' && digitsVal [s1, s2] ≤ 59 then
            let sec := digitsVal [s1, s2]
            match rest2 with
            | [] => some (base + sec)
            | c3 :: ds =>
              if c3 = '.' then
                match parseFrac ds with
                | some f => some (base + sec + f)
                | none => none
              else none
          else none
        | _ => none
      else none
    else none
  | _ => none

/-- A parsed Python datetime: wall-clock time in rational days, plus the UTC
offset (in days) when the parsed string carried one — an "aware" datetime —
or `none` for a naive datetime. -/
structure PyDatetime where
  days : ℚ
  utcOffset : Option ℚ
deriving DecidableEq

/-- Parse a UTC offset `±HH:MM` into days. -/
def parseTzOffset (l : List Char) : Option ℚ :=
  match l with
  | [sgn, h1, h2, c, m1, m2] =>
    if ([h1, h2, m1, m2].all isDig) && c = ':' then
      let h := digitsVal [h1, h2]
      let mi := digitsVal [m1, m2]
      if h ≤ 23 && mi ≤ 59 then
        if sgn = '+' then some (mkRat (3600 * h + 60 * mi) 86400)
        else if sgn = '-' then some (-(mkRat (3600 * h + 60 * mi) 86400))
        else none
      else none
    else none
  | _ => none

/-- Split the time-of-day tail at the start of a UTC offset: a sign never
occurs inside the time itself, so the offset begins at the first `+` or `-`. -/
def splitTz (l : List Char) : List Char × Option (List Char) :=
  match l.findIdx? (fun c => c = '+' || c = '-') with
  | none => (l, none)
  | some i => (l.take i, some (l.drop i))

/-- Parse a full ISO date/datetime string as `datetime.fromisoformat` does:
malformed strings give `none`, strings with a UTC offset give an aware
datetime. -/
def parseIsoTz (l : List Char) : Option PyDatetime :=
  match parseDatePart (l.take 10) with
  | none => none
  | some ord =>
    match l.drop 10 with
    | [] => some ⟨(ord : ℚ), none⟩
    | sep :: rest =>
      if sep = 'T' || sep = ' ' then
        match splitTz rest with
        | (timePart, tzPart) =>
          match parseTimePart timePart with
          | some secs =>
            match tzPart with
            | none => some ⟨(ord : ℚ) + mkRat secs.num (secs.den * 86400), none⟩
            | some tz =>
              match parseTzOffset tz with
              | some off =>
                some ⟨(ord : ℚ) + mkRat secs.num (secs.den * 86400), some off⟩
              | none => none
          | none => none
      else none

/-- The naive-fragment view of `parseIsoTz` feeding the rational-valued
`date_score`: the wall-clock days of a naive parse, `none` when the string is
malformed or parses to an aware datetime (the aware case makes the real
`date_score` raise and is modelled by `date_score_checked`). -/
def parseIso (l : List Char) : Option ℚ :=
  match parseIsoTz l with
  | some d => if d.utcOffset = none then some d.days else none
  | none => none

/-- Parse an ISO date string; `none` for falsy input or parse failure. -/
def parse_date (value : Option String) : Option ℚ :=
  match value with
  | none => none
  | some s => if s = "" then none else parseIso s.data

/-- Like `parse_date` but keeping the full parsed datetime, offset included. -/
def parse_date_tz (value : Option String) : Option PyDatetime :=
  match value with
  | none => none
  | some s => if s = "" then none else parseIsoTz s.data

/-- Transaction date, parsed from the `date` field. -/
def get_transaction_date (t : Transaction) : Option ℚ :=
  parse_date t.date

/-- Attachment date: first truthy of `invoicing_date`, `receiving_date`,
`due_date` (Python `or` chain), then parsed. -/
def get_attachment_date (a : Attachment) : Option ℚ :=
  let d := attData a
  parse_date (pyOr (pyOr d.invoicing_date d.receiving_date) d.due_date)

example : parse_date (some "2024-01-01") = some 738886 := by decide
example : parse_date (some "2024-13-01") = none := by decide
example : parse_date (some "2024-02-30") = none := by decide
example : parse_date (some "garbage") = none := by decide
example : parse_date (some "2024-01-01T12:00:00") = some (738886 + mkRat 1 2) := by decide
example : parse_date (some "") = none := by decide
example : parse_date (some "2024-02-29") = some 738945 := by decide

/-! ### Name accessors -/

/-- Normalized counterparty name from a transaction (the `contact` field). -/
def get_transaction_name (t : Transaction) : Option String :=
  normalize_name t.contact

/-- Normalized counterparty name from an attachment: first of the normalized
`issuer`, `recipient`, `supplier` fields that is truthy and differs from the
normalized account-owner name `Example Company Oy`. -/
def get_attachment_counterparty (a : Attachment) : Option String :=
  let d := attData a
  let issuer := normalize_name d.issuer
  let recipient := normalize_name d.recipient
  let supplier := normalize_name d.supplier
  let company := normalize_name (some "Example Company Oy")
  let candidates := ([issuer, recipient, supplier].filterMap id).filter
    (fun n => decide (¬ n = "") && decide (¬ some n = company))
  candidates.head?

/-! ### Similarity ratio

Models `difflib.SequenceMatcher(None, a, b).ratio()` for short strings (no
junk, no autojunk — autojunk only applies when the second string has 200 or
more characters, far beyond counterparty names).  `find_longest_match` is the
standard dynamic program over rows of the first string; `ratio` is twice the
total matched size over the total length. -/

/-- Inner of `find_longest_match`: walk the occurrence positions `j` of the
current character of `a` inside `b`, extending runs recorded in `j2len`. -/
def flmRow (j2len : ℕ → ℕ) (i : ℕ) :
    List ℕ → (ℕ → ℕ) → ℕ × ℕ × ℕ → (ℕ → ℕ) × (ℕ × ℕ × ℕ)
  | [], acc, best => (acc, best)
  | j :: js, acc, best =>
    let k := (if j = 0 then 0 else j2len (j - 1)) + 1
    let best' := if best.2.2 < k then (i + 1 - k, j + 1 - k, k) else best
    flmRow j2len i js (fun x => if x = j then k else acc x) best'

/-- Outer of `find_longest_match`: one `flmRow` per index of `a` in range. -/
def flmGo (a b : List Char) (blo bhi : ℕ) :
    List ℕ → (ℕ → ℕ) → ℕ × ℕ × ℕ → ℕ × ℕ × ℕ
  | [], _, best => best
  | i :: is, j2len, best =>
    let js := (List.range' blo (bhi - blo)).filter
      (fun j => decide (b.get? j = a.get? i))
    let st := flmRow j2len i js (fun _ => 0) best
    flmGo a b blo bhi is st.1 st.2

/-- Model of `SequenceMatcher.find_longest_match` on the given ranges. -/
def find_longest_match (a b : List Char) (alo ahi blo bhi : ℕ) : ℕ × ℕ × ℕ :=
  flmGo a b blo bhi (List.range' alo (ahi - alo)) (fun _ => 0) (alo, blo, 0)

/-- Model of `SequenceMatcher.get_matching_blocks`, fuel-bounded recursion on the two
ranges (the fuel passed by `ratio` always suffices). -/
def matchingBlocks (a b : List Char) :
    ℕ → ℕ → ℕ → ℕ → ℕ → List (ℕ × ℕ × ℕ)
  | 0, _, _, _, _ => []
  | fuel + 1, alo, ahi, blo, bhi =>
    let best := find_longest_match a b alo ahi blo bhi
    if best.2.2 = 0 then []
    else
      matchingBlocks a b fuel alo best.1 blo best.2.1
        ++ best :: matchingBlocks a b fuel (best.1 + best.2.2) ahi (best.2.1 + best.2.2) bhi

/-- Model of `SequenceMatcher.ratio`: twice the total matched size over the total length. -/
def ratioFn (a b : List Char) : ℚ :=
  let blocks := matchingBlocks a b (a.length + b.length + 1) 0 a.length 0 b.length
  let msize : ℕ := blocks.foldl (fun n bl => n + bl.2.2) 0
  if a.length + b.length = 0 then 1
  else mkRat (2 * msize) (a.length + b.length)

/-! ### Signal scorers -/

/-- Amount score: compare absolute values; `< 0.01` apart scores 1.0, within
1.0 scores 0.6, otherwise 0.0; absent data scores 0.0. -/
def amount_score (t : Transaction) (att : Attachment) : ℚ :=
  match get_transaction_amount t, get_attachment_amount att with
  | some tx, some am =>
    let diff := |(|tx| - |am|)|
    if diff < 1/100 then 1
    else if diff ≤ 1 then 3/5
    else 0
  | _, _ => 0

/-- Date score: step function of `abs((tx_date - att_date).days)`, where
`timedelta.days` floors; absent or unparseable dates score 0.0. -/
def date_score (t : Transaction) (att : Attachment) : ℚ :=
  match get_transaction_date t, get_attachment_date att with
  | some txd, some attd =>
    let days := (⌊txd - attd⌋ : ℤ).natAbs
    if days ≤ 2 then 1
    else if days ≤ 5 then 4/5
    else if days ≤ 10 then 1/2
    else if days ≤ 20 then 1/5
    else 0
  | _, _ => 0

/-- Python datetime subtraction: naive minus naive compares wall clocks,
aware minus aware compares UTC instants, and mixing the two raises
`TypeError` (modelled as `Except.error`). -/
def pySubDatetime (d1 d2 : PyDatetime) : Except String ℚ :=
  match d1.utcOffset, d2.utcOffset with
  | none, none => Except.ok (d1.days - d2.days)
  | some o1, some o2 => Except.ok ((d1.days - o1) - (d2.days - o2))
  | _, _ => Except.error "TypeError"

/-- The date scorer with the exception path made explicit: parse both dates
with the full `fromisoformat` model and score the floored day difference.
When exactly one side parses to an aware datetime the unguarded subtraction
in the source `date_score` raises `TypeError` — `parse_date` catches only
`ValueError` around parsing and nothing guards the subtraction — so the
error propagates uncaught through `match_score` and both matchers. -/
def date_score_checked (t : Transaction) (att : Attachment) : Except String ℚ :=
  let d := attData att
  let txd := parse_date_tz t.date
  let attd := parse_date_tz (pyOr (pyOr d.invoicing_date d.receiving_date) d.due_date)
  match txd, attd with
  | some x, some y =>
    match pySubDatetime x y with
    | Except.error e => Except.error e
    | Except.ok diff =>
      let days := (⌊diff⌋ : ℤ).natAbs
      Except.ok (if days ≤ 2 then 1
        else if days ≤ 5 then 4/5
        else if days ≤ 10 then 1/2
        else if days ≤ 20 then 1/5
        else 0)
  | _, _ => Except.ok 0

/-- Name score: similarity ratio of the normalized names, thresholded at 0.98
(scores 1.0) and 0.90 (scores 0.6); absent names score 0.0. -/
def name_score (t : Transaction) (att : Attachment) : ℚ :=
  match get_transaction_name t, get_attachment_counterparty att with
  | some tx, some am =>
    if tx = "" ∨ am = "" then 0
    else
      let similarity := ratioFn tx.data am.data
      if 49/50 ≤ similarity then 1
      else if 9/10 ≤ similarity then 3/5
      else 0
  | _, _ => 0

/-- Both sides present a (truthy) counterparty name. -/
def has_both_names (t : Transaction) (att : Attachment) : Bool :=
  truthy (get_transaction_name t) && truthy (get_attachment_counterparty att)

/-- Composite heuristic score with hard gates: amount must score exactly 1.0,
date must score positively, and when both names exist the name score must be
positive; then the three signals are combined with equal weight 3. -/
def match_score (t : Transaction) (att : Attachment) : ℚ :=
  let a := amount_score t att
  let d := date_score t att
  let n := name_score t att
  if a < 1 then 0
  else if d ≤ 0 then 0
  else if has_both_names t att = true ∧ n ≤ 0 then 0
  else 3 * a + 3 * d + 3 * n

example : ratioFn "abc".data "abc".data = 1 := by decide
example : ratioFn "abcd".data "bcde".data = mkRat 3 4 := by decide

/-! ### Matchers

The phase-2 loop of `find_attachment`/`find_transaction` tracks the best
candidate plus the best and second-best scores in a single pass; the
per-iteration `continue` on records carrying a reference is modelled by
filtering the candidate list to the eligible records before the fold. -/

/-- One pass of the best/second-best tracking loop, shared by both matchers:
a new maximum demotes the previous maximum to second place. -/
def scanBest {α : Type} (score : α → ℚ) :
    List α → Option α × ℚ × ℚ → Option α × ℚ × ℚ
  | [], st => st
  | x :: xs, (best, bs, ss) =>
    let sc := score x
    if bs < sc then scanBest score xs (some x, sc, bs)
    else if ss < sc then scanBest score xs (best, bs, sc)
    else scanBest score xs (best, bs, ss)

/-- Phase 2 acceptance: a best candidate must exist, reach the absolute
threshold 3.5, and beat the second-best score by the margin 1.0. -/
def bestCandidate {α : Type} (score : α → ℚ) (l : List α) : Option α :=
  match scanBest score l (none, 0, 0) with
  | (none, _, _) => none
  | (some b, bs, ss) =>
    if bs < 7/2 then none
    else if bs - ss < 1 then none
    else some b

/-- Find the best matching attachment for a transaction: exact reference
resolution first (unique match returned, ambiguity rejected), then the
heuristic fallback over candidates where neither side has a reference. -/
def find_attachment (t : Transaction) (attachments : List Attachment) :
    Option Attachment :=
  let txRef := get_transaction_reference t
  let eligible := attachments.filter
    (fun att => decide (txRef = none ∧ get_attachment_reference att = none))
  let phase2 := bestCandidate (fun att => match_score t att) eligible
  match txRef with
  | some r =>
    let refMatches := attachments.filter
      (fun att => decide (get_attachment_reference att = some r))
    if refMatches.length = 1 then refMatches.head?
    else if 1 < refMatches.length then none
    else phase2
  | none => phase2

/-- Find the best matching transaction for an attachment: same rules as
`find_attachment` with the roles swapped (the composite score is always
evaluated as `match_score transaction attachment`). -/
def find_transaction (a : Attachment) (transactions : List Transaction) :
    Option Transaction :=
  let attRef := get_attachment_reference a
  let eligible := transactions.filter
    (fun t => decide (attRef = none ∧ get_transaction_reference t = none))
  let phase2 := bestCandidate (fun t => match_score t a) eligible
  match attRef with
  | some r =>
    let refMatches := transactions.filter
      (fun t => decide (get_transaction_reference t = some r))
    if refMatches.length = 1 then refMatches.head?
    else if 1 < refMatches.length then none
    else phase2
  | none => phase2

/-! Concrete sanity checks of the whole pipeline. -/

example :
    let t : Transaction := { amount := some (-100), date := some "2024-01-05" }
    let a : Attachment := { data := some { total_amount := some 100, invoicing_date := some "2024-01-05" } }
    match_score t a = 6 := by decide

example :
    let t : Transaction := { reference := some "RF 00123", amount := some 5 }
    let a1 : Attachment := { data := some { reference := some "123", total_amount := some 999 } }
    let a2 : Attachment := { data := some { total_amount := some 5 } }
    find_attachment t [a2, a1] = some a1 := by decide

example :
    let t : Transaction := { reference := some "RF 00123" }
    let a1 : Attachment := { data := some { reference := some "123" } }
    find_attachment t [a1, a1] = none := by decide

example :
    let t : Transaction := { amount := some 100, date := some "2024-01-05" }
    let a1 : Attachment := { data := some { total_amount := some 100, invoicing_date := some "2024-01-05" } }
    let a2 : Attachment := { data := some { total_amount := some 100, invoicing_date := some "2024-01-06" } }
    find_attachment t [a1, a2] = none := by decide

example :
    let t : Transaction := { amount := some 100, date := some "2024-01-05" }
    let a1 : Attachment := { data := some { total_amount := some 100, invoicing_date := some "2024-01-05" } }
    let a2 : Attachment := { data := some { total_amount := some 100, invoicing_date := some "2024-01-15" } }
    find_attachment t [a2, a1] = some a1 := by decide

/-! ### Properties of the best/second-best scan -/

theorem scanBest_nil {α : Type} (score : α → ℚ) (st : Option α × ℚ × ℚ) :
    scanBest score [] st = st := rfl

theorem scanBest_cons {α : Type} (score : α → ℚ) (x : α) (xs : List α)
    (b : Option α) (bs ss : ℚ) :
    scanBest score (x :: xs) (b, bs, ss) =
      if bs < score x then scanBest score xs (some x, score x, bs)
      else if ss < score x then scanBest score xs (b, bs, score x)
      else scanBest score xs (b, bs, ss) := rfl

/-- The final best score is the fold of `max` over the scores, seeded with the
incoming best score. -/
theorem scanBest_bs {α : Type} (score : α → ℚ) (l : List α) :
    ∀ b bs ss, (scanBest score l (b, bs, ss)).2.1
      = l.foldl (fun m x => max m (score x)) bs := by
  induction l with
  | nil => intro b bs ss; rfl
  | cons x xs ih =>
    intro b bs ss
    rw [scanBest_cons, List.foldl_cons]
    by_cases h1 : bs < score x
    · rw [if_pos h1, ih, max_eq_right h1.le]
    · rw [if_neg h1, max_eq_left (le_of_not_lt h1)]
      by_cases h2 : ss < score x
      · rw [if_pos h2, ih]
      · rw [if_neg h2, ih]

/-- The final best candidate and best score either are the incoming ones or
point at a list element together with its score. -/
theorem scanBest_best {α : Type} (score : α → ℚ) (l : List α) :
    ∀ b bs ss, ((scanBest score l (b, bs, ss)).1 = b ∧ (scanBest score l (b, bs, ss)).2.1 = bs)
      ∨ ∃ w ∈ l, (scanBest score l (b, bs, ss)).1 = some w
          ∧ (scanBest score l (b, bs, ss)).2.1 = score w := by
  induction l with
  | nil => intro b bs ss; exact Or.inl ⟨rfl, rfl⟩
  | cons x xs ih =>
    intro b bs ss
    rw [scanBest_cons]
    by_cases h1 : bs < score x
    · rw [if_pos h1]
      rcases ih (some x) (score x) bs with ⟨hb, hbs⟩ | ⟨w, hw, hb, hbs⟩
      · exact Or.inr ⟨x, List.mem_cons_self x xs, hb, hbs⟩
      · exact Or.inr ⟨w, List.mem_cons_of_mem x hw, hb, hbs⟩
    · rw [if_neg h1]
      by_cases h2 : ss < score x
      · rw [if_pos h2]
        rcases ih b bs (score x) with ⟨hb, hbs⟩ | ⟨w, hw, hb, hbs⟩
        · exact Or.inl ⟨hb, hbs⟩
        · exact Or.inr ⟨w, List.mem_cons_of_mem x hw, hb, hbs⟩
      · rw [if_neg h2]
        rcases ih b bs ss with ⟨hb, hbs⟩ | ⟨w, hw, hb, hbs⟩
        · exact Or.inl ⟨hb, hbs⟩
        · exact Or.inr ⟨w, List.mem_cons_of_mem x hw, hb, hbs⟩

/-- Monotonicity: along the scan the second-best score never decreases, stays
below the best score, and the best score never decreases. -/
theorem scanBest_mono {α : Type} (score : α → ℚ) (l : List α) :
    ∀ b bs ss, ss ≤ bs →
      ss ≤ (scanBest score l (b, bs, ss)).2.2
      ∧ (scanBest score l (b, bs, ss)).2.2 ≤ (scanBest score l (b, bs, ss)).2.1
      ∧ bs ≤ (scanBest score l (b, bs, ss)).2.1 := by
  induction l with
  | nil => intro b bs ss h; exact ⟨le_refl ss, h, le_refl bs⟩
  | cons x xs ih =>
    intro b bs ss h
    rw [scanBest_cons]
    by_cases h1 : bs < score x
    · rw [if_pos h1]
      obtain ⟨m1, m2, m3⟩ := ih (some x) (score x) bs h1.le
      exact ⟨le_trans h m1, m2, le_trans h1.le m3⟩
    · rw [if_neg h1]
      by_cases h2 : ss < score x
      · rw [if_pos h2]
        obtain ⟨m1, m2, m3⟩ := ih b bs (score x) (le_of_not_lt h1)
        exact ⟨le_trans h2.le m1, m2, m3⟩
      · rw [if_neg h2]
        exact ih b bs ss h

/-- At most one element of the scanned list scores strictly above the final
second-best score, counting the incoming best score as a virtual element. -/
theorem scanBest_count {α : Type} (score : α → ℚ) (l : List α) :
    ∀ b bs ss, ss ≤ bs →
      l.countP (fun x => decide ((scanBest score l (b, bs, ss)).2.2 < score x))
        + (if (scanBest score l (b, bs, ss)).2.2 < bs then 1 else 0) ≤ 1 := by
  induction l with
  | nil =>
    intro b bs ss h
    rw [scanBest_nil, List.countP_nil]
    split <;> omega
  | cons x xs ih =>
    intro b bs ss h
    rw [scanBest_cons]
    by_cases h1 : bs < score x
    · rw [if_pos h1, List.countP_cons]
      simp only [decide_eq_true_eq]
      have hmono := (scanBest_mono score xs (some x) (score x) bs h1.le).1
      have hbs : ¬ ((scanBest score xs (some x, score x, bs)).2.2 < bs) := not_lt.mpr hmono
      rw [if_neg hbs]
      have hih := ih (some x) (score x) bs h1.le
      simp only [decide_eq_true_eq] at hih
      omega
    · rw [if_neg h1]
      by_cases h2 : ss < score x
      · rw [if_pos h2, List.countP_cons]
        simp only [decide_eq_true_eq]
        have hmono := (scanBest_mono score xs b bs (score x) (le_of_not_lt h1)).1
        have hx : ¬ ((scanBest score xs (b, bs, score x)).2.2 < score x) := not_lt.mpr hmono
        rw [if_neg hx]
        have hih := ih b bs (score x) (le_of_not_lt h1)
        simp only [decide_eq_true_eq] at hih
        omega
      · rw [if_neg h2, List.countP_cons]
        simp only [decide_eq_true_eq]
        have hmono := (scanBest_mono score xs b bs ss h).1
        have hx : ¬ ((scanBest score xs (b, bs, ss)).2.2 < score x) :=
          not_lt.mpr (le_trans (le_of_not_lt h2) hmono)
        rw [if_neg hx]
        have hih := ih b bs ss h
        simp only [decide_eq_true_eq] at hih
        omega

/-- Upper bound for the final second-best score: if at most one list element
scores above `c`, the incoming best score is at most `c` whenever such an
element exists, and the incoming second-best is at most `c`, then the final
second-best stays at most `c`. -/
theorem scanBest_ss_le {α : Type} (score : α → ℚ) (l : List α) :
    ∀ b bs ss c, ss ≤ c →
      l.countP (fun x => decide (c < score x)) ≤ 1 →
      (1 ≤ l.countP (fun x => decide (c < score x)) → bs ≤ c) →
      (scanBest score l (b, bs, ss)).2.2 ≤ c := by
  induction l with
  | nil => intro b bs ss c h _ _; exact h
  | cons x xs ih =>
    intro b bs ss c h hcnt hbs
    rw [List.countP_cons] at hcnt hbs
    simp only [decide_eq_true_eq] at hcnt hbs
    rw [scanBest_cons]
    by_cases hx : c < score x
    · rw [if_pos hx] at hcnt hbs
      have hble : bs ≤ c := hbs (by omega)
      have h1 : bs < score x := lt_of_le_of_lt hble hx
      rw [if_pos h1]
      exact ih (some x) (score x) bs c hble (by omega) (fun hge => by omega)
    · rw [if_neg hx] at hcnt hbs
      have hsc : score x ≤ c := le_of_not_lt hx
      by_cases h1 : bs < score x
      · rw [if_pos h1]
        exact ih (some x) (score x) bs c (h1.le.trans hsc) (by omega)
          (fun hge => hsc)
      · rw [if_neg h1]
        by_cases h2 : ss < score x
        · rw [if_pos h2]
          exact ih b bs (score x) c hsc (by omega) (fun hge => hbs (by omega))
        · rw [if_neg h2]
          exact ih b bs ss c h (by omega) (fun hge => hbs (by omega))

theorem foldl_max_init_le {α : Type} (score : α → ℚ) (l : List α) :
    ∀ q : ℚ, q ≤ l.foldl (fun m x => max m (score x)) q := by
  induction l with
  | nil => intro q; exact le_refl q
  | cons x xs ih =>
    intro q
    rw [List.foldl_cons]
    exact le_trans (le_max_left q (score x)) (ih _)

theorem foldl_max_le_of_mem {α : Type} (score : α → ℚ) (l : List α) :
    ∀ q : ℚ, ∀ a ∈ l, score a ≤ l.foldl (fun m x => max m (score x)) q := by
  induction l with
  | nil => intro q a ha; exact absurd ha (List.not_mem_nil a)
  | cons x xs ih =>
    intro q a ha
    rw [List.foldl_cons]
    rcases List.mem_cons.mp ha with rfl | hmem
    · exact le_trans (le_max_right q (score a)) (foldl_max_init_le score xs _)
    · exact ih _ a hmem

theorem foldl_max_le {α : Type} (score : α → ℚ) (l : List α) (c : ℚ)
    (hl : ∀ x ∈ l, score x ≤ c) :
    ∀ q : ℚ, q ≤ c → l.foldl (fun m x => max m (score x)) q ≤ c := by
  induction l with
  | nil => intro q hq; exact hq
  | cons x xs ih =>
    intro q hq
    rw [List.foldl_cons]
    exact ih (fun y hy => hl y (List.mem_cons_of_mem x hy)) _
      (max_le hq (hl x (List.mem_cons_self x xs)))

/-- Characterization of the phase-2 acceptance: a candidate is returned iff it
is in the list, reaches the threshold 3.5, and every other occurrence in the
list scores at least the margin 1.0 below it. -/
theorem bestCandidate_eq_some_iff {α : Type} [DecidableEq α]
    (score : α → ℚ) (l : List α) (a : α) :
    bestCandidate score l = some a ↔
      a ∈ l ∧ 7/2 ≤ score a ∧ ∀ b ∈ l.erase a, score b ≤ score a - 1 := by
  constructor
  · intro h
    unfold bestCandidate at h
    rcases hsb : scanBest score l (none, 0, 0) with ⟨b, bs, ss⟩
    rw [hsb] at h
    cases b with
    | none => exact Option.noConfusion h
    | some b' =>
      replace h : (if bs < 7/2 then none
        else if bs - ss < 1 then none else some b') = some a := h
      by_cases hthr : bs < 7/2
      · rw [if_pos hthr] at h
        exact Option.noConfusion h
      rw [if_neg hthr] at h
      by_cases hmar : bs - ss < 1
      · rw [if_pos hmar] at h
        exact Option.noConfusion h
      rw [if_neg hmar] at h
      have hba : b' = a := Option.some.inj h
      subst hba
      rcases scanBest_best score l none 0 0 with ⟨hb, _⟩ | ⟨w, hw, hb, hbs⟩
      · rw [hsb] at hb
        exact Option.noConfusion hb
      rw [hsb] at hb hbs
      dsimp only at hb hbs
      have hwa : b' = w := Option.some.inj hb
      rw [← hwa] at hw hbs
      refine ⟨hw, by rw [← hbs]; exact le_of_not_lt hthr, ?_⟩
      intro y hy
      have hcount := scanBest_count score l none 0 0 (le_refl 0)
      have hss0 : (0:ℚ) ≤ (scanBest score l (none, 0, 0)).2.2 :=
        (scanBest_mono score l none 0 0 (le_refl 0)).1
      rw [hsb] at hcount hss0
      dsimp only at hcount hss0
      rw [if_neg (not_lt.mpr hss0)] at hcount
      have hperm : l.Perm (b' :: l.erase b') := List.perm_cons_erase hw
      have hcnteq := hperm.countP_eq (fun x => decide (ss < score x))
      have hwpred : ss < score b' := by
        have h1 : (1:ℚ) ≤ bs - ss := le_of_not_lt hmar
        rw [← hbs]
        linarith
      rw [List.countP_cons] at hcnteq
      simp only [decide_eq_true_eq, if_pos hwpred] at hcnteq
      have hzero : (l.erase b').countP (fun x => decide (ss < score x)) = 0 := by
        omega
      have hy' := List.countP_eq_zero.mp hzero y hy
      simp only [decide_eq_true_eq] at hy'
      have h1 : (1:ℚ) ≤ bs - ss := le_of_not_lt hmar
      rw [← hbs]
      have : score y ≤ ss := le_of_not_lt hy'
      linarith
  · rintro ⟨hmem, hthr, herase⟩
    have hbig : ∀ y ∈ l, score y ≤ score a := by
      intro y hy
      by_cases hya : y = a
      · exact le_of_eq (by rw [hya])
      · have hye : y ∈ l.erase a := (List.mem_erase_of_ne hya).mpr hy
        have := herase y hye
        linarith
    have hbs : (scanBest score l (none, 0, 0)).2.1 = score a := by
      rw [scanBest_bs]
      apply le_antisymm
      · exact foldl_max_le score l (score a) hbig 0 (by linarith)
      · exact foldl_max_le_of_mem score l 0 a hmem
    have hb : (scanBest score l (none, 0, 0)).1 = some a := by
      rcases scanBest_best score l none 0 0 with ⟨_, hbs'⟩ | ⟨w, hw, hb, hbs'⟩
      · rw [hbs] at hbs'
        linarith
      · have hwa : w = a := by
          by_contra hne
          have hwe : w ∈ l.erase a := (List.mem_erase_of_ne hne).mpr hw
          have := herase w hwe
          rw [hbs] at hbs'
          linarith
        rw [hwa] at hb
        exact hb
    have hss : (scanBest score l (none, 0, 0)).2.2 ≤ score a - 1 := by
      apply scanBest_ss_le score l none 0 0 (score a - 1) (by linarith)
      · have hperm : l.Perm (a :: l.erase a) := List.perm_cons_erase hmem
        rw [hperm.countP_eq, List.countP_cons]
        simp only [decide_eq_true_eq]
        rw [if_pos (by linarith : score a - 1 < score a)]
        have hzero : (l.erase a).countP (fun x => decide (score a - 1 < score x)) = 0 := by
          apply List.countP_eq_zero.mpr
          intro y hy
          simp only [decide_eq_true_eq]
          exact not_lt.mpr (herase y hy)
        omega
      · intro _
        linarith
    unfold bestCandidate
    rcases hsb : scanBest score l (none, 0, 0) with ⟨b, bs, ss⟩
    rw [hsb] at hb hbs hss
    dsimp only at hb hbs hss
    subst hb
    show (if bs < 7/2 then none else if bs - ss < 1 then none else some a) = some a
    rw [if_neg (not_lt.mpr (by rw [hbs]; exact hthr))]
    rw [if_neg (not_lt.mpr (by rw [hbs]; linarith))]

/-- Two optional values agreeing on all `some` cases are equal. -/
theorem option_eq_of_some_iff {α : Type} (o1 o2 : Option α)
    (h : ∀ x, o1 = some x ↔ o2 = some x) : o1 = o2 := by
  cases o1 with
  | none =>
    cases o2 with
    | none => rfl
    | some y => exact (h y).mpr rfl
  | some x => exact ((h x).mp rfl).symm

/-- The phase-2 acceptance is invariant under permutation of the candidates. -/
theorem bestCandidate_perm {α : Type} [DecidableEq α] (score : α → ℚ)
    {l l' : List α} (h : l.Perm l') :
    bestCandidate score l = bestCandidate score l' := by
  apply option_eq_of_some_iff
  intro a
  rw [bestCandidate_eq_some_iff, bestCandidate_eq_some_iff]
  constructor
  · rintro ⟨hm, ht, he⟩
    exact ⟨h.mem_iff.mp hm, ht, fun b hb => he b ((h.erase a).mem_iff.mpr hb)⟩
  · rintro ⟨hm, ht, he⟩
    exact ⟨h.mem_iff.mpr hm, ht, fun b hb => he b ((h.erase a).mem_iff.mp hb)⟩

/-- With a transaction reference present, `find_attachment` reduces to exact
reference resolution (the heuristic loop skips every candidate). -/
theorem find_attachment_ref (t : Transaction) (atts : List Attachment) (r : String)
    (h : get_transaction_reference t = some r) :
    find_attachment t atts =
      (if (atts.filter (fun att => decide (get_attachment_reference att = some r))).length = 1
        then (atts.filter (fun att => decide (get_attachment_reference att = some r))).head?
      else if 1 < (atts.filter (fun att => decide (get_attachment_reference att = some r))).length
        then none
      else none) := by
  have hnil : atts.filter
      (fun att => decide (some r = none ∧ get_attachment_reference att = none)) = [] := by
    apply List.filter_eq_nil_iff.mpr
    intro a _
    simp
  simp only [find_attachment, h, hnil]
  rfl

/-- With no transaction reference, `find_attachment` is the heuristic search
over the attachments that lack a reference themselves. -/
theorem find_attachment_noref (t : Transaction) (atts : List Attachment)
    (h : get_transaction_reference t = none) :
    find_attachment t atts =
      bestCandidate (fun att => match_score t att)
        (atts.filter (fun att => decide (get_attachment_reference att = none))) := by
  have hfc : atts.filter
      (fun att => decide (True ∧ get_attachment_reference att = none))
      = atts.filter (fun att => decide (get_attachment_reference att = none)) := by
    apply List.filter_congr
    intro a _
    simp
  simp only [find_attachment, h, hfc]

/-- With an attachment reference present, `find_transaction` reduces to exact
reference resolution. -/
theorem find_transaction_ref (a : Attachment) (txs : List Transaction) (r : String)
    (h : get_attachment_reference a = some r) :
    find_transaction a txs =
      (if (txs.filter (fun tx => decide (get_transaction_reference tx = some r))).length = 1
        then (txs.filter (fun tx => decide (get_transaction_reference tx = some r))).head?
      else if 1 < (txs.filter (fun tx => decide (get_transaction_reference tx = some r))).length
        then none
      else none) := by
  have hnil : txs.filter
      (fun tx => decide (some r = none ∧ get_transaction_reference tx = none)) = [] := by
    apply List.filter_eq_nil_iff.mpr
    intro x _
    simp
  simp only [find_transaction, h, hnil]
  rfl

/-- With no attachment reference, `find_transaction` is the heuristic search
over the transactions that lack a reference themselves. -/
theorem find_transaction_noref (a : Attachment) (txs : List Transaction)
    (h : get_attachment_reference a = none) :
    find_transaction a txs =
      bestCandidate (fun tx => match_score tx a)
        (txs.filter (fun tx => decide (get_transaction_reference tx = none))) := by
  have hfc : txs.filter
      (fun tx => decide (True ∧ get_transaction_reference tx = none))
      = txs.filter (fun tx => decide (get_transaction_reference tx = none)) := by
    apply List.filter_congr
    intro x _
    simp
  simp only [find_transaction, h, hfc]

/-! ## Claim theorems -/

/-- C1. For every anchor with a present normalized reference,
`find_attachment` returns the unique attachment whose normalized reference
equals the anchor's when exactly one such attachment exists (regardless of
the amount, date and name signals, which are universally quantified here),
and returns `none` when two or more attachments share that reference;
`find_transaction` behaves symmetrically over a transaction list. -/
theorem c1_exact_reference_resolution :
    (∀ (t : Transaction) (atts : List Attachment) (r : String) (a : Attachment),
      get_transaction_reference t = some r →
      atts.filter (fun att => decide (get_attachment_reference att = some r)) = [a] →
      find_attachment t atts = some a)
    ∧ (∀ (t : Transaction) (atts : List Attachment) (r : String),
      get_transaction_reference t = some r →
      2 ≤ (atts.filter (fun att => decide (get_attachment_reference att = some r))).length →
      find_attachment t atts = none)
    ∧ (∀ (a : Attachment) (txs : List Transaction) (r : String) (t : Transaction),
      get_attachment_reference a = some r →
      txs.filter (fun tx => decide (get_transaction_reference tx = some r)) = [t] →
      find_transaction a txs = some t)
    ∧ (∀ (a : Attachment) (txs : List Transaction) (r : String),
      get_attachment_reference a = some r →
      2 ≤ (txs.filter (fun tx => decide (get_transaction_reference tx = some r))).length →
      find_transaction a txs = none) := by
  refine ⟨?_, ?_, ?_, ?_⟩
  · intro t atts r a h1 h2
    rw [find_attachment_ref t atts r h1, h2]
    simp
  · intro t atts r h1 h2
    rw [find_attachment_ref t atts r h1]
    rw [if_neg (by omega), if_pos (by omega)]
  · intro a txs r t h1 h2
    rw [find_transaction_ref a txs r h1, h2]
    simp
  · intro a txs r h1 h2
    rw [find_transaction_ref a txs r h1]
    rw [if_neg (by omega), if_pos (by omega)]

/-- Witness for C1: a reference `RF 00123` resolves to the unique attachment
with reference `123` despite a mismatched amount, and two attachments sharing
the reference are rejected. -/
theorem c1_witness :
    find_attachment { reference := some "RF 00123", amount := some 5 }
        [{ data := some { total_amount := some 5 } },
         { data := some { reference := some "123", total_amount := some 999 } }]
      = some { data := some { reference := some "123", total_amount := some 999 } }
    ∧ find_attachment { reference := some "RF 00123", amount := some 5 }
        [{ data := some { reference := some "123" } },
         { data := some { reference := some "0123" } }]
      = none := by
  constructor
  · exact c1_exact_reference_resolution.1 _ _ "123" _ (by decide) (by decide)
  · exact c1_exact_reference_resolution.2.1 _ _ "123" (by decide) (by decide)

/-- C2. In the heuristic fallback phase, the matchers only consider
candidates where neither side has a usable normalized reference, and a
candidate is returned iff it reaches the composite threshold 3.5 and beats
every other eligible candidate by the margin 1.0 (so tied top candidates give
`none`); an anchor whose reference matched no candidate in phase 1 always
gives `none`. -/
theorem c2_heuristic_fallback :
    (∀ (t : Transaction) (atts : List Attachment) (a : Attachment),
      get_transaction_reference t = none →
      (find_attachment t atts = some a ↔
        (a ∈ atts.filter (fun att => decide (get_attachment_reference att = none))
          ∧ 7/2 ≤ match_score t a
          ∧ ∀ b ∈ (atts.filter
              (fun att => decide (get_attachment_reference att = none))).erase a,
              match_score t b ≤ match_score t a - 1)))
    ∧ (∀ (t : Transaction) (atts : List Attachment) (r : String),
      get_transaction_reference t = some r →
      (∀ att ∈ atts, ¬ get_attachment_reference att = some r) →
      find_attachment t atts = none)
    ∧ (∀ (a : Attachment) (txs : List Transaction) (t : Transaction),
      get_attachment_reference a = none →
      (find_transaction a txs = some t ↔
        (t ∈ txs.filter (fun tx => decide (get_transaction_reference tx = none))
          ∧ 7/2 ≤ match_score t a
          ∧ ∀ u ∈ (txs.filter
              (fun tx => decide (get_transaction_reference tx = none))).erase t,
              match_score u a ≤ match_score t a - 1)))
    ∧ (∀ (a : Attachment) (txs : List Transaction) (r : String),
      get_attachment_reference a = some r →
      (∀ tx ∈ txs, ¬ get_transaction_reference tx = some r) →
      find_transaction a txs = none) := by
  refine ⟨?_, ?_, ?_, ?_⟩
  · intro t atts a h
    rw [find_attachment_noref t atts h]
    exact bestCandidate_eq_some_iff (fun att => match_score t att) _ a
  · intro t atts r h1 h2
    rw [find_attachment_ref t atts r h1]
    have hnil : atts.filter
        (fun att => decide (get_attachment_reference att = some r)) = [] := by
      apply List.filter_eq_nil_iff.mpr
      intro x hx
      simpa using h2 x hx
    rw [hnil]
    simp
  · intro a txs t h
    rw [find_transaction_noref a txs h]
    exact bestCandidate_eq_some_iff (fun tx => match_score tx a) _ t
  · intro a txs r h1 h2
    rw [find_transaction_ref a txs r h1]
    have hnil : txs.filter
        (fun tx => decide (get_transaction_reference tx = some r)) = [] := by
      apply List.filter_eq_nil_iff.mpr
      intro x hx
      simpa using h2 x hx
    rw [hnil]
    simp

/-- Witness for C2: with no references anywhere, a candidate scoring 6.0
against a rival scoring 0.0 is accepted through the characterization. -/
theorem c2_witness :
    find_attachment { amount := some 100, date := some "2024-01-05" }
        [{ data := some { total_amount := some 100, invoicing_date := some "2024-01-05" } },
         { data := some { total_amount := some 100, invoicing_date := some "2024-03-05" } }]
      = some { data := some { total_amount := some 100, invoicing_date := some "2024-01-05" } } :=
  (c2_heuristic_fallback.1 _ _ _ (by decide)).mpr (by decide)

/-- C8. `find_attachment` and `find_transaction` are independent of the
order of the candidate list: permuted candidates give the same result. -/
theorem c8_order_insensitive :
    (∀ (t : Transaction) (atts atts' : List Attachment), atts.Perm atts' →
      find_attachment t atts = find_attachment t atts')
    ∧ (∀ (a : Attachment) (txs txs' : List Transaction), txs.Perm txs' →
      find_transaction a txs = find_transaction a txs') := by
  constructor
  · intro t atts atts' h
    cases href : get_transaction_reference t with
    | none =>
      rw [find_attachment_noref t atts href, find_attachment_noref t atts' href]
      exact bestCandidate_perm _ (h.filter _)
    | some r =>
      rw [find_attachment_ref t atts r href, find_attachment_ref t atts' r href]
      have hperm := h.filter (fun att => decide (get_attachment_reference att = some r))
      have hlen := hperm.length_eq
      by_cases h1 : (atts.filter
          (fun att => decide (get_attachment_reference att = some r))).length = 1
      · obtain ⟨x, hx⟩ := List.length_eq_one.mp h1
        have hx' : atts'.filter
            (fun att => decide (get_attachment_reference att = some r)) = [x] := by
          rw [hx] at hperm
          exact List.perm_singleton.mp hperm.symm
        rw [hx, hx']
      · have h1' : ¬ (atts'.filter
            (fun att => decide (get_attachment_reference att = some r))).length = 1 := by
          rw [← hlen]
          exact h1
        rw [if_neg h1, if_neg h1']
        by_cases h2 : 1 < (atts.filter
            (fun att => decide (get_attachment_reference att = some r))).length
        · have h2' : 1 < (atts'.filter
              (fun att => decide (get_attachment_reference att = some r))).length := by
            rw [← hlen]
            exact h2
          rw [if_pos h2, if_pos h2']
        · have h2' : ¬ 1 < (atts'.filter
              (fun att => decide (get_attachment_reference att = some r))).length := by
            rw [← hlen]
            exact h2
          rw [if_neg h2, if_neg h2']
  · intro a txs txs' h
    cases href : get_attachment_reference a with
    | none =>
      rw [find_transaction_noref a txs href, find_transaction_noref a txs' href]
      exact bestCandidate_perm _ (h.filter _)
    | some r =>
      rw [find_transaction_ref a txs r href, find_transaction_ref a txs' r href]
      have hperm := h.filter (fun tx => decide (get_transaction_reference tx = some r))
      have hlen := hperm.length_eq
      by_cases h1 : (txs.filter
          (fun tx => decide (get_transaction_reference tx = some r))).length = 1
      · obtain ⟨x, hx⟩ := List.length_eq_one.mp h1
        have hx' : txs'.filter
            (fun tx => decide (get_transaction_reference tx = some r)) = [x] := by
          rw [hx] at hperm
          exact List.perm_singleton.mp hperm.symm
        rw [hx, hx']
      · have h1' : ¬ (txs'.filter
            (fun tx => decide (get_transaction_reference tx = some r))).length = 1 := by
          rw [← hlen]
          exact h1
        rw [if_neg h1, if_neg h1']
        by_cases h2 : 1 < (txs.filter
            (fun tx => decide (get_transaction_reference tx = some r))).length
        · have h2' : 1 < (txs'.filter
              (fun tx => decide (get_transaction_reference tx = some r))).length := by
            rw [← hlen]
            exact h2
          rw [if_pos h2, if_pos h2']
        · have h2' : ¬ 1 < (txs'.filter
              (fun tx => decide (get_transaction_reference tx = some r))).length := by
            rw [← hlen]
            exact h2
          rw [if_neg h2, if_neg h2']

/-- Witness for C8: swapping two heuristic candidates (one of which would win
on score) does not change the result. -/
theorem c8_witness :
    find_attachment { amount := some 100, date := some "2024-01-05" }
        [{ data := some { total_amount := some 100, invoicing_date := some "2024-01-15" } },
         { data := some { total_amount := some 100, invoicing_date := some "2024-01-05" } }]
      = find_attachment { amount := some 100, date := some "2024-01-05" }
        [{ data := some { total_amount := some 100, invoicing_date := some "2024-01-05" } },
         { data := some { total_amount := some 100, invoicing_date := some "2024-01-15" } }] :=
  c8_order_insensitive.1 _ _ _
    (List.Perm.swap
      ({ data := some { total_amount := some 100, invoicing_date := some "2024-01-05" } } : Attachment)
      ({ data := some { total_amount := some 100, invoicing_date := some "2024-01-15" } } : Attachment)
      [])

/-! ### Value sets of the signal scorers -/

theorem amount_score_cases (t : Transaction) (att : Attachment) :
    amount_score t att = 0 ∨ amount_score t att = 3/5 ∨ amount_score t att = 1 := by
  unfold amount_score
  rcases get_transaction_amount t with _ | tx
  · simp
  rcases get_attachment_amount att with _ | am
  · simp
  dsimp only
  split_ifs <;> simp

theorem date_score_cases (t : Transaction) (att : Attachment) :
    date_score t att = 0 ∨ date_score t att = 1/5 ∨ date_score t att = 1/2
      ∨ date_score t att = 4/5 ∨ date_score t att = 1 := by
  unfold date_score
  rcases get_transaction_date t with _ | txd
  · simp
  rcases get_attachment_date att with _ | attd
  · simp
  dsimp only
  split_ifs <;> simp

theorem name_score_cases (t : Transaction) (att : Attachment) :
    name_score t att = 0 ∨ name_score t att = 3/5 ∨ name_score t att = 1 := by
  unfold name_score
  rcases get_transaction_name t with _ | tx
  · simp
  rcases get_attachment_counterparty att with _ | am
  · simp
  dsimp only
  split_ifs <;> simp

/-- C3. `match_score` returns 0.0 unless the amount score is exactly 1.0,
the date score is strictly positive, and — whenever both names are present —
the name score is strictly positive; when all gates pass it returns
`3·amount + 3·date + 3·name`, so every return value lies in
`{0} ∪ [3.6, 9.0]`, and an amount score of 0.6 never yields a positive
composite. -/
theorem c3_composite_gates :
    ∀ (t : Transaction) (att : Attachment),
      (match_score t att = 0
        ∨ (amount_score t att = 1 ∧ 0 < date_score t att
            ∧ (has_both_names t att = true → 0 < name_score t att)
            ∧ match_score t att
              = 3 * amount_score t att + 3 * date_score t att + 3 * name_score t att
            ∧ 18/5 ≤ match_score t att ∧ match_score t att ≤ 9))
      ∧ (amount_score t att = 3/5 → match_score t att = 0) := by
  intro t att
  constructor
  · simp only [match_score]
    split_ifs with h1 h2 h3
    · exact Or.inl rfl
    · exact Or.inl rfl
    · exact Or.inl rfl
    · right
      have hA : amount_score t att = 1 := by
        rcases amount_score_cases t att with h | h | h
        · rw [h] at h1
          norm_num at h1
        · rw [h] at h1
          norm_num at h1
        · exact h
      have hd : 0 < date_score t att := lt_of_not_le h2
      have hn : has_both_names t att = true → 0 < name_score t att := by
        intro hb
        rcases name_score_cases t att with h | h | h
        · exact absurd ⟨hb, by rw [h]⟩ h3
        · rw [h]
          norm_num
        · rw [h]
          norm_num
      refine ⟨hA, hd, hn, rfl, ?_, ?_⟩
      · have hd' : 1/5 ≤ date_score t att := by
          rcases date_score_cases t att with h | h | h | h | h <;> rw [h] at hd ⊢ <;> norm_num at hd ⊢
        have hn' : 0 ≤ name_score t att := by
          rcases name_score_cases t att with h | h | h <;> rw [h] <;> norm_num
        rw [hA]
        linarith
      · have hd' : date_score t att ≤ 1 := by
          rcases date_score_cases t att with h | h | h | h | h <;> rw [h] <;> norm_num
        have hn' : name_score t att ≤ 1 := by
          rcases name_score_cases t att with h | h | h <;> rw [h] <;> norm_num
        rw [hA]
        linarith
  · intro h
    simp only [match_score]
    rw [h]
    rw [if_pos (by norm_num)]

/-- Witness for C3: a 0.6 amount score (50-cent difference) forces the
composite to 0.0 even with matching dates. -/
theorem c3_witness :
    match_score { amount := some (201/2), date := some "2024-01-05" }
        { data := some { total_amount := some 100, invoicing_date := some "2024-01-05" } }
      = 0 :=
  (c3_composite_gates _ _).2 (by decide)

/-- The three signal scorers of the rational-valued model land in `[0, 1]`
and return 0.0 whenever required data is absent. -/
theorem signal_scorers_total_in_range :
    ∀ (t : Transaction) (att : Attachment),
      (0 ≤ amount_score t att ∧ amount_score t att ≤ 1)
      ∧ (0 ≤ date_score t att ∧ date_score t att ≤ 1)
      ∧ (0 ≤ name_score t att ∧ name_score t att ≤ 1)
      ∧ (get_transaction_amount t = none ∨ get_attachment_amount att = none →
          amount_score t att = 0)
      ∧ (get_transaction_date t = none ∨ get_attachment_date att = none →
          date_score t att = 0)
      ∧ (get_transaction_name t = none ∨ get_attachment_counterparty att = none →
          name_score t att = 0) := by
  intro t att
  refine ⟨?_, ?_, ?_, ?_, ?_, ?_⟩
  · rcases amount_score_cases t att with h | h | h <;> rw [h] <;> norm_num
  · rcases date_score_cases t att with h | h | h | h | h <;> rw [h] <;> norm_num
  · rcases name_score_cases t att with h | h | h <;> rw [h] <;> norm_num
  · intro habs
    unfold amount_score
    rcases habs with h | h
    · rw [h]
    · rw [h]
      rcases get_transaction_amount t with _ | tx <;> rfl
  · intro habs
    unfold date_score
    rcases habs with h | h
    · rw [h]
    · rw [h]
      rcases get_transaction_date t with _ | txd <;> rfl
  · intro habs
    unfold name_score
    rcases habs with h | h
    · rw [h]
    · rw [h]
      rcases get_transaction_name t with _ | txn <;> rfl

example :
    amount_score { } { } = 0 ∧ date_score { } { } = 0 ∧ name_score { } { } = 0 :=
  ⟨(signal_scorers_total_in_range { } { }).2.2.2.1 (Or.inl rfl),
   (signal_scorers_total_in_range { } { }).2.2.2.2.1 (Or.inl rfl),
   (signal_scorers_total_in_range { } { }).2.2.2.2.2 (Or.inl rfl)⟩

/-- The day-difference step function used by `date_score`. -/
def dayStep (n : ℕ) : ℚ :=
  if n ≤ 2 then 1
  else if n ≤ 5 then 4/5
  else if n ≤ 10 then 1/2
  else if n ≤ 20 then 1/5
  else 0

/-- C7. The attachment date accessor selects by first-truthy precedence
`invoicing_date`, `receiving_date`, `due_date` and parses the selected string
(malformed strings parse to `none` rather than raising); in particular a
present-but-malformed `invoicing_date` masks a valid `receiving_date`. -/
theorem c7_attachment_date_precedence :
    ∀ (a : Attachment),
      (truthy (attData a).invoicing_date = true →
        get_attachment_date a = parse_date (attData a).invoicing_date)
      ∧ (truthy (attData a).invoicing_date = false →
          truthy (attData a).receiving_date = true →
          get_attachment_date a = parse_date (attData a).receiving_date)
      ∧ (truthy (attData a).invoicing_date = false →
          truthy (attData a).receiving_date = false →
          get_attachment_date a = parse_date (attData a).due_date)
      ∧ get_attachment_date
          { data := some { invoicing_date := some "2024-13-05",
                           receiving_date := some "2024-01-10" } } = none := by
  intro a
  refine ⟨?_, ?_, ?_, by decide⟩
  · intro h
    simp [get_attachment_date, pyOr, h]
  · intro h1 h2
    simp [get_attachment_date, pyOr, h1, h2]
  · intro h1 h2
    simp [get_attachment_date, pyOr, h1, h2]

/-- Witness for C7: a truthy invoicing date is selected ahead of a due date. -/
theorem c7_witness :
    get_attachment_date
        { data := some { invoicing_date := some "2024-01-07",
                         due_date := some "2024-01-01" } } = parse_date (some "2024-01-07") :=
  (c7_attachment_date_precedence _).1 (by decide)

/-- C6, amended. When both dates parse, `date_score` is the step function
of `natAbs (floor (tx_date - att_date))` — Python `timedelta.days` floors the
signed difference before `abs` is taken — and this is symmetric in the two
dates whenever their difference is a whole number of days (in particular for
date-only ISO strings), but not in general for datetimes with time
components. -/
theorem c6_amended_floor_step :
    ∀ (t : Transaction) (att : Attachment) (d1 d2 : ℚ),
      get_transaction_date t = some d1 →
      get_attachment_date att = some d2 →
      date_score t att = dayStep (⌊d1 - d2⌋.natAbs)
      ∧ (∀ z : ℤ, d1 - d2 = (z : ℚ) →
          dayStep (⌊d1 - d2⌋.natAbs) = dayStep (⌊d2 - d1⌋.natAbs)) := by
  intro t att d1 d2 h1 h2
  constructor
  · unfold date_score
    rw [h1, h2]
    rfl
  · intro z hz
    have hz2 : d2 - d1 = ((-z : ℤ) : ℚ) := by
      push_cast
      linarith
    rw [hz, hz2, Int.floor_intCast, Int.floor_intCast, Int.natAbs_neg]

/-- Witness for C6: a three-day whole gap scores 0.8 in both orientations. -/
theorem c6_witness :
    date_score { date := some "2024-01-01" }
        { data := some { invoicing_date := some "2024-01-04" } }
      = dayStep (⌊(738886 : ℚ) - 738889⌋.natAbs)
    ∧ dayStep (⌊(738886 : ℚ) - 738889⌋.natAbs)
      = dayStep (⌊(738889 : ℚ) - 738886⌋.natAbs) :=
  ⟨(c6_amended_floor_step _ _ 738886 738889 (by decide) (by decide)).1,
   (c6_amended_floor_step
      { date := some "2024-01-01" }
      { data := some { invoicing_date := some "2024-01-04" } }
      738886 738889 (by decide) (by decide)).2 (-3) (by decide)⟩

/-- Counterexample to C6 as stated: with a time component the score is not
symmetric — a 2.5-day gap scores 0.8 when the transaction is earlier
(floor gives -3) but 1.0 when it is later (floor gives 2). -/
theorem c6_counterexample_asymmetry :
    date_score { date := some "2024-01-01" }
        { data := some { invoicing_date := some "2024-01-03T12:00:00" } } = 4/5
    ∧ date_score { date := some "2024-01-03T12:00:00" }
        { data := some { invoicing_date := some "2024-01-01" } } = 1
    ∧ (4/5 : ℚ) ≠ 1 := by decide

/-! ### Facts about the character pipeline -/

theorem char_eq_of_toNat_eq {c d : Char} (h : c.toNat = d.toNat) : c = d := by
  have h1 := Char.ofNat_toNat c
  have h2 := Char.ofNat_toNat d
  rw [← h1, ← h2, h]

theorem lowChar_space {c : Char} (h : lowChar c = ' ') : c = ' ' := by
  by_cases hc : 65 ≤ c.toNat ∧ c.toNat ≤ 90
  · have ht := lowChar_toNat_of_upper c hc
    rw [h] at ht
    have hsp : (' ').toNat = 32 := rfl
    omega
  · rw [(lowChar_fixed_iff c).mpr hc] at h
    exact h

theorem lowChar_zero {c : Char} (h : lowChar c = '0') : c = '0' := by
  by_cases hc : 65 ≤ c.toNat ∧ c.toNat ≤ 90
  · have ht := lowChar_toNat_of_upper c hc
    rw [h] at ht
    have hz : ('0').toNat = 48 := rfl
    omega
  · rw [(lowChar_fixed_iff c).mpr hc] at h
    exact h

theorem upChar_space {c : Char} (h : upChar c = ' ') : c = ' ' := by
  by_cases hc : 97 ≤ c.toNat ∧ c.toNat ≤ 122
  · have ht := upChar_toNat_of_lower c hc
    rw [h] at ht
    have hsp : (' ').toNat = 32 := rfl
    omega
  · unfold upChar at h
    rw [if_neg hc] at h
    exact h

theorem upChar_zero {c : Char} (h : upChar c = '0') : c = '0' := by
  by_cases hc : 97 ≤ c.toNat ∧ c.toNat ≤ 122
  · have ht := upChar_toNat_of_lower c hc
    rw [h] at ht
    have hz : ('0').toNat = 48 := rfl
    omega
  · unfold upChar at h
    rw [if_neg hc] at h
    exact h

theorem upChar_eq_upper_of_fixed {c d : Char} (hfix : lowChar c = c)
    (h : upChar c = d) (hd : 65 ≤ d.toNat ∧ d.toNat ≤ 90) :
    c.toNat = d.toNat + 32 := by
  rw [lowChar_fixed_iff] at hfix
  rcases upChar_toNat_mem c with h1 | ⟨h1, h2⟩
  · rw [h] at h1
    omega
  · rw [h] at h1
    omega

theorem isSpc_lowChar (c : Char) : isSpc (lowChar c) = isSpc c := by
  by_cases hc : 65 ≤ c.toNat ∧ c.toNat ≤ 90
  · have ht := lowChar_toNat_of_upper c hc
    have h1 : isSpc c = false := by
      simp only [isSpc, Bool.or_eq_false_iff, decide_eq_false_iff_not]
      omega
    have h2 : isSpc (lowChar c) = false := by
      simp only [isSpc, Bool.or_eq_false_iff, decide_eq_false_iff_not, ht]
      omega
    rw [h1, h2]
  · rw [(lowChar_fixed_iff c).mpr hc]

/-! ### Facts about `stripStr` -/

theorem head?_dropWhile_false (p : Char → Bool) (l : List Char) (c : Char)
    (h : (l.dropWhile p).head? = some c) : p c = false := by
  have hm := List.head?_dropWhile_not p l
  rw [h] at hm
  exact hm

theorem dropWhile_eq_self_of_head (p : Char → Bool) (l : List Char)
    (h : ∀ c, l.head? = some c → p c = false) : l.dropWhile p = l := by
  cases l with
  | nil => rfl
  | cons x xs =>
    rw [List.dropWhile_cons, if_neg]
    simp [h x rfl]

theorem getLast?_dropWhile (p : Char → Bool) (l : List Char) (c : Char)
    (h : (l.dropWhile p).getLast? = some c) : l.getLast? = some c := by
  obtain ⟨pre, hpre⟩ := List.dropWhile_suffix (l := l) p
  have hne : l.dropWhile p ≠ [] := by
    intro hnil
    rw [hnil] at h
    exact Option.noConfusion h
  rw [← hpre, List.getLast?_append_of_ne_nil pre hne, h]

theorem stripStr_eq_self {l : List Char} (h1 : l.dropWhile isSpc = l)
    (h2 : l.reverse.dropWhile isSpc = l.reverse) : stripStr l = l := by
  unfold stripStr
  rw [h1, h2, List.reverse_reverse]

theorem stripStr_head (l : List Char) (c : Char)
    (h : (stripStr l).head? = some c) : isSpc c = false := by
  unfold stripStr at h
  rw [List.head?_reverse] at h
  have h2 := getLast?_dropWhile isSpc _ c h
  rw [List.getLast?_reverse] at h2
  exact head?_dropWhile_false isSpc l c h2

theorem stripStr_last (l : List Char) (c : Char)
    (h : (stripStr l).getLast? = some c) : isSpc c = false := by
  unfold stripStr at h
  rw [List.getLast?_reverse] at h
  exact head?_dropWhile_false isSpc _ c h

theorem stripStr_idem (l : List Char) : stripStr (stripStr l) = stripStr l := by
  apply stripStr_eq_self
  · exact dropWhile_eq_self_of_head isSpc _ (fun c hc => stripStr_head l c hc)
  · apply dropWhile_eq_self_of_head
    intro c hc
    rw [List.head?_reverse] at hc
    exact stripStr_last l c hc

theorem stripStr_subset (l : List Char) : ∀ c ∈ stripStr l, c ∈ l := by
  intro c hc
  unfold stripStr at hc
  rw [List.mem_reverse] at hc
  have h1 := (List.dropWhile_sublist isSpc).subset hc
  rw [List.mem_reverse] at h1
  exact (List.dropWhile_sublist isSpc).subset h1

theorem stripStr_map_lowChar (l : List Char) :
    stripStr (l.map lowChar) = (stripStr l).map lowChar := by
  have hfn : (isSpc ∘ lowChar) = isSpc := funext isSpc_lowChar
  unfold stripStr
  rw [List.dropWhile_map, hfn, ← List.map_reverse, List.dropWhile_map, hfn,
    ← List.map_reverse]

/-! ### Facts about the suffix loop -/

theorem suffixFold_no_match (l : List Char)
    (h : ∀ suf ∈ nameSuffixes, suf.isSuffixOf l = false) :
    nameSuffixes.foldl stripSuffixStep l = l := by
  have h1 := h " oyj".data (by simp [nameSuffixes])
  have h2 := h " oy".data (by simp [nameSuffixes])
  have h3 := h " ab".data (by simp [nameSuffixes])
  have h4 := h " tmi".data (by simp [nameSuffixes])
  simp [nameSuffixes, stripSuffixStep, h1, h2, h3, h4]

theorem stripSuffixStep_subset (s suf : List Char) :
    ∀ c ∈ stripSuffixStep s suf, c ∈ s := by
  intro c hc
  unfold stripSuffixStep at hc
  split at hc
  · exact List.take_subset _ _ (stripStr_subset _ c hc)
  · exact hc

theorem suffixFold_subset (l : List Char) :
    ∀ c ∈ nameSuffixes.foldl stripSuffixStep l, c ∈ l := by
  intro c hc
  simp only [nameSuffixes, List.foldl_cons, List.foldl_nil] at hc
  exact stripSuffixStep_subset _ _ c
    (stripSuffixStep_subset _ _ c
      (stripSuffixStep_subset _ _ c
        (stripSuffixStep_subset _ _ c hc)))

theorem stripSuffixStep_stripped {s : List Char} (hs : stripStr s = s)
    (suf : List Char) :
    stripStr (stripSuffixStep s suf) = stripSuffixStep s suf := by
  unfold stripSuffixStep
  split
  · exact stripStr_idem _
  · exact hs

theorem suffixFold_stripped {l : List Char} (hl : stripStr l = l) :
    stripStr (nameSuffixes.foldl stripSuffixStep l)
      = nameSuffixes.foldl stripSuffixStep l := by
  simp only [nameSuffixes, List.foldl_cons, List.foldl_nil]
  exact stripSuffixStep_stripped
    (stripSuffixStep_stripped
      (stripSuffixStep_stripped (stripSuffixStep_stripped hl _) _) _) _

/-! ### Shape of the normalizer outputs -/

/-- Listing then restringing is the identity. -/
theorem data_asString (l : List Char) : (List.asString l).data = l := rfl

/-- Restringing the characters of a string gives it back. -/
theorem asString_data (s : String) : List.asString s.data = s := by
  cases s
  rfl

theorem normalize_name_out (x : Option String) (y : String)
    (h : normalize_name x = some y) :
    y.data ≠ [] ∧ (∀ c ∈ y.data, lowChar c = c) ∧ stripStr y.data = y.data := by
  unfold normalize_name at h
  cases x with
  | none => exact Option.noConfusion h
  | some s =>
    dsimp only at h
    by_cases hs : s = ""
    · rw [if_pos hs] at h
      exact Option.noConfusion h
    rw [if_neg hs] at h
    by_cases h2 : nameSuffixes.foldl stripSuffixStep ((stripStr s.data).map lowChar) = []
    · rw [if_pos h2] at h
      exact Option.noConfusion h
    rw [if_neg h2] at h
    have hy : y.data = nameSuffixes.foldl stripSuffixStep ((stripStr s.data).map lowChar) := by
      have := Option.some.inj h
      rw [← this, data_asString]
    refine ⟨by rw [hy]; exact h2, ?_, ?_⟩
    · intro c hc
      rw [hy] at hc
      have hc1 := suffixFold_subset _ c hc
      rw [List.mem_map] at hc1
      obtain ⟨d, _, rfl⟩ := hc1
      exact lowChar_idem d
    · rw [hy]
      apply suffixFold_stripped
      rw [stripStr_map_lowChar, stripStr_idem]

theorem normalize_name_fixed (y : String)
    (h1 : y.data ≠ []) (h2 : ∀ c ∈ y.data, lowChar c = c)
    (h3 : stripStr y.data = y.data)
    (h4 : ∀ suf ∈ nameSuffixes, suf.isSuffixOf y.data = false) :
    normalize_name (some y) = some y := by
  unfold normalize_name
  dsimp only
  have hne : ¬ y = "" := by
    intro hy
    apply h1
    rw [hy]
  rw [if_neg hne]
  have hmap : (stripStr y.data).map lowChar = y.data := by
    rw [h3]
    have hcg := List.map_congr_left h2
    rw [hcg]
    simp
  rw [hmap, suffixFold_no_match _ h4, if_neg h1, asString_data]

theorem refTail_out (u3 : List Char) (hsp : ∀ c ∈ u3, ¬ c = ' ') (y : String)
    (h : (if (u3.dropWhile (fun c => decide (c = '0'))).map lowChar = [] then none
      else some ((u3.dropWhile (fun c => decide (c = '0'))).map lowChar).asString) = some y) :
    y.data ≠ [] ∧ (∀ c ∈ y.data, lowChar c = c ∧ ¬ c = ' ')
      ∧ (∀ c, y.data.head? = some c → ¬ c = '0') := by
  by_cases h5 : (u3.dropWhile (fun c => decide (c = '0'))).map lowChar = []
  · rw [if_pos h5] at h
    exact Option.noConfusion h
  rw [if_neg h5] at h
  have hy : y.data = (u3.dropWhile (fun c => decide (c = '0'))).map lowChar := by
    have := Option.some.inj h
    rw [← this, data_asString]
  refine ⟨by rw [hy]; exact h5, ?_, ?_⟩
  · intro c hc
    rw [hy, List.mem_map] at hc
    obtain ⟨d, hd, rfl⟩ := hc
    refine ⟨lowChar_idem d, ?_⟩
    intro hsp'
    have hd3 := (List.dropWhile_sublist _).subset hd
    exact hsp d hd3 (lowChar_space hsp')
  · intro c hc
    rw [hy, List.head?_map] at hc
    cases hh : (u3.dropWhile (fun c => decide (c = '0'))).head? with
    | none =>
      rw [hh] at hc
      exact Option.noConfusion hc
    | some d =>
      rw [hh] at hc
      have hcd : c = lowChar d := (Option.some.inj hc).symm
      have hd0 := head?_dropWhile_false _ _ _ hh
      rw [decide_eq_false_iff_not] at hd0
      intro h0
      apply hd0
      apply lowChar_zero
      rw [← hcd]
      exact h0

theorem normalize_ref_out (x : Option String) (y : String)
    (h : normalize_ref x = some y) :
    y.data ≠ [] ∧ (∀ c ∈ y.data, lowChar c = c ∧ ¬ c = ' ')
      ∧ (∀ c, y.data.head? = some c → ¬ c = '0') := by
  unfold normalize_ref at h
  cases x with
  | none => exact Option.noConfusion h
  | some s =>
    dsimp only at h
    by_cases hs : s = ""
    · rw [if_pos hs] at h
      exact Option.noConfusion h
    rw [if_neg hs] at h
    apply refTail_out _ _ y h
    intro c hc
    rw [List.mem_filter, decide_eq_true_eq] at hc
    exact hc.2

theorem normalize_ref_fixed (y : String)
    (h1 : y.data ≠ []) (h2 : ∀ c ∈ y.data, lowChar c = c ∧ ¬ c = ' ')
    (h3 : ∀ c, y.data.head? = some c → ¬ c = '0')
    (h4 : ¬ y.data.take 2 = ['r', 'f']) :
    normalize_ref (some y) = some y := by
  unfold normalize_ref
  dsimp only
  have hne : ¬ y = "" := by
    intro hy
    apply h1
    rw [hy]
  rw [if_neg hne]
  have hRF : ¬ (y.data.map upChar).take 2 = ['R', 'F'] := by
    intro hcon
    apply h4
    rw [← List.map_take] at hcon
    rcases htk : y.data.take 2 with _ | ⟨c1, rest⟩
    · rw [htk] at hcon
      simp at hcon
    rcases rest with _ | ⟨c2, rest2⟩
    · rw [htk] at hcon
      simp at hcon
    rcases rest2 with _ | ⟨c3, r3⟩
    · rw [htk] at hcon
      simp only [List.map_cons, List.map_nil, List.cons.injEq, and_true] at hcon
      obtain ⟨e1, e2⟩ := hcon
      have hc1 : c1 ∈ y.data := List.take_subset 2 y.data (htk ▸ List.mem_cons_self _ _)
      have hc2 : c2 ∈ y.data :=
        List.take_subset 2 y.data (htk ▸ List.mem_cons_of_mem _ (List.mem_cons_self _ _))
      have t1 := upChar_eq_upper_of_fixed (h2 c1 hc1).1 e1 (by decide)
      have t2 := upChar_eq_upper_of_fixed (h2 c2 hc2).1 e2 (by decide)
      have hc1r : c1 = 'r' := char_eq_of_toNat_eq (by rw [t1]; decide)
      have hc2f : c2 = 'f' := char_eq_of_toNat_eq (by rw [t2]; decide)
      rw [hc1r, hc2f]
    · have hlen := congrArg List.length htk
      simp only [List.length_take, List.length_cons] at hlen
      omega
  rw [if_neg hRF]
  have hflt : (y.data.map upChar).filter (fun c => decide (¬ c = ' '))
      = y.data.map upChar := by
    apply List.filter_eq_self.mpr
    intro c hcmem
    rw [List.mem_map] at hcmem
    obtain ⟨d, hd, rfl⟩ := hcmem
    rw [decide_eq_true_eq]
    intro hsp
    exact (h2 d hd).2 (upChar_space hsp)
  rw [hflt]
  have hdw : (y.data.map upChar).dropWhile (fun c => decide (c = '0'))
      = y.data.map upChar := by
    apply dropWhile_eq_self_of_head
    intro c hc
    rw [List.head?_map] at hc
    cases hh : y.data.head? with
    | none =>
      rw [hh] at hc
      exact Option.noConfusion hc
    | some d =>
      rw [hh] at hc
      have hcd : c = upChar d := (Option.some.inj hc).symm
      apply decide_eq_false
      intro h0
      apply h3 d hh
      apply upChar_zero
      rw [← hcd]
      exact h0
  rw [hdw]
  have hmap2 : (y.data.map upChar).map lowChar = y.data := by
    rw [List.map_map]
    have hcg := List.map_congr_left
      (fun c hcmem => lowChar_upChar_of_fixed c (h2 c hcmem).1)
    rw [show ((lowChar ∘ upChar) : Char → Char) = fun c => lowChar (upChar c) from rfl]
    rw [hcg]
    simp
  rw [hmap2, if_neg h1, asString_data]

/-- C4, amended. The normalizers are idempotent on all inputs whose
normalized form is itself a fixed point — for `normalize_ref` whenever the
output does not begin with `rf` (re-normalizing such an output strips the
`rf` again), and for `normalize_name` whenever the output does not end with
one of the legal suffixes (re-normalizing such an output strips a further
suffix).  Absent results fed back in stay absent by definition. -/
theorem c4_amended_idempotence :
    (∀ (x : Option String) (y : String), normalize_ref x = some y →
      ¬ y.data.take 2 = ['r', 'f'] → normalize_ref (some y) = some y)
    ∧ (∀ (x : Option String) (y : String), normalize_name x = some y →
      (∀ suf ∈ nameSuffixes, suf.isSuffixOf y.data = false) →
      normalize_name (some y) = some y) := by
  constructor
  · intro x y h h4
    obtain ⟨h1, h2, h3⟩ := normalize_ref_out x y h
    exact normalize_ref_fixed y h1 h2 h3 h4
  · intro x y h h4
    obtain ⟨h1, h2, h3⟩ := normalize_name_out x y h
    exact normalize_name_fixed y h1 h2 h3 h4

/-- Witness for C4: ordinary outputs are fixed points of both normalizers. -/
theorem c4_witness :
    normalize_ref (some "abc") = some "abc"
    ∧ normalize_name (some "acme") = some "acme" :=
  ⟨c4_amended_idempotence.1 (some "abc") "abc" (by decide) (by decide),
   c4_amended_idempotence.2 (some "acme") "acme" (by decide) (by decide)⟩

/-- Counterexample to C4 as stated: `normalize_ref "rfrf1" = "rf1"` but
normalizing again gives `"1"`, and `normalize_name "x oy ab" = "x oy"` but
normalizing again gives `"x"`. -/
theorem c4_counterexample_not_idempotent :
    normalize_ref (normalize_ref (some "rfrf1")) ≠ normalize_ref (some "rfrf1")
    ∧ normalize_name (normalize_name (some "x oy ab")) ≠ normalize_name (some "x oy ab") := by
  decide

/-- C5, amended. `normalize_name` checks the suffixes `" oyj"`, `" oy"`,
`" ab"`, `" tmi"` in that fixed order, removing (with a re-trim) each one
that matches when its turn comes; the scan continues after a removal, so a
stacked suffix occurring later in the order is also removed, while one
occurring earlier is kept; a name matching no suffix is unchanged. -/
theorem c5_amended_suffix_scan :
    (∀ l : List Char, (∀ suf ∈ nameSuffixes, suf.isSuffixOf l = false) →
      nameSuffixes.foldl stripSuffixStep l = l)
    ∧ normalize_name (some "x ab oy") = some "x"
    ∧ normalize_name (some "x oy ab") = some "x oy" :=
  ⟨suffixFold_no_match, by decide, by decide⟩

/-- Witness for C5: a name ending in no legal suffix passes the scan
unchanged. -/
theorem c5_witness :
    nameSuffixes.foldl stripSuffixStep "acme inc".data = "acme inc".data :=
  c5_amended_suffix_scan.1 "acme inc".data (by decide)

/-- Counterexample to C5 as stated: `"x ab oy"` loses `" oy"` (checked
second) and then also `" ab"` (checked third, matching the remainder), so
two suffixes are removed where the claim allows at most one: the claimed
result would be `"x ab"`. -/
theorem c5_counterexample_double_removal :
    normalize_name (some "x ab oy") = some "x"
    ∧ normalize_name (some "x ab oy") ≠ some "x ab" := by
  decide

/-- C9, amended. Mirror symmetry holds when the pairing is unambiguous
in both directions: for reference fixtures whose reference is unique on both
sides the two matchers return each other's anchors, and a heuristic match
reverses whenever the anchor also wins the reverse margin test over the
transaction list. -/
theorem c9_amended_mirror :
    (∀ (t : Transaction) (txs : List Transaction) (a : Attachment)
        (atts : List Attachment) (r : String),
      get_transaction_reference t = some r →
      get_attachment_reference a = some r →
      atts.filter (fun att => decide (get_attachment_reference att = some r)) = [a] →
      txs.filter (fun tx => decide (get_transaction_reference tx = some r)) = [t] →
      find_attachment t atts = some a ∧ find_transaction a txs = some t)
    ∧ (∀ (t : Transaction) (txs : List Transaction) (a : Attachment)
        (atts : List Attachment),
      get_transaction_reference t = none →
      get_attachment_reference a = none →
      find_attachment t atts = some a →
      t ∈ txs.filter (fun tx => decide (get_transaction_reference tx = none)) →
      (∀ u ∈ (txs.filter
          (fun tx => decide (get_transaction_reference tx = none))).erase t,
        match_score u a ≤ match_score t a - 1) →
      find_transaction a txs = some t) := by
  constructor
  · intro t txs a atts r h1 h2 h3 h4
    constructor
    · rw [find_attachment_ref t atts r h1, h3]
      simp
    · rw [find_transaction_ref a txs r h2, h4]
      simp
  · intro t txs a atts h1 h2 hfound hmem hmargin
    rw [find_attachment_noref t atts h1] at hfound
    have hchar := (bestCandidate_eq_some_iff (fun att => match_score t att) _ a).mp hfound
    rw [find_transaction_noref a txs h2]
    exact (bestCandidate_eq_some_iff (fun tx => match_score tx a) _ t).mpr
      ⟨hmem, hchar.2.1, hmargin⟩

/-- Witness for C9: a reference unique on both sides resolves both ways. -/
theorem c9_witness :
    find_attachment { reference := some "RF 7" } [{ data := some { reference := some "0007" } }]
      = some { data := some { reference := some "0007" } }
    ∧ find_transaction { data := some { reference := some "0007" } }
        [{ reference := some "RF 7" }]
      = some { reference := some "RF 7" } :=
  c9_amended_mirror.1 _ _ _ _ "7" (by decide) (by decide) (by decide) (by decide)

/-- Counterexample to C9 as stated: the transaction uniquely matches the only
attachment (score 6.0), but the reverse search sees two transactions tied at
6.0 and returns `none` instead of the original anchor. -/
theorem c9_counterexample_no_mirror :
    find_attachment { amount := some 100, date := some "2024-01-05" }
        [{ data := some { total_amount := some 100, invoicing_date := some "2024-01-05" } }]
      = some { data := some { total_amount := some 100, invoicing_date := some "2024-01-05" } }
    ∧ find_transaction { data := some { total_amount := some 100, invoicing_date := some "2024-01-05" } }
        [{ amount := some 100, date := some "2024-01-05" },
         { amount := some 100, date := some "2024-01-06" }]
      = none := by
  decide

/-- The rational-valued `parse_date` is the naive projection of the full
parse: it returns the wall-clock days exactly when the parse is naive. -/
theorem parse_date_eq_tz (x : Option String) :
    parse_date x = (match parse_date_tz x with
      | some d => if d.utcOffset = none then some d.days else none
      | none => none) := by
  unfold parse_date parse_date_tz parseIso
  cases x with
  | none => rfl
  | some s =>
    dsimp only
    by_cases hs : s = ""
    · rw [if_pos hs, if_pos hs]
    · rw [if_neg hs, if_neg hs]

/-- Whenever no parsed date is aware, the exception-aware date scorer agrees
with the rational-valued model: `date_score` is exactly the restriction of
the program to its non-raising date domain. -/
theorem date_score_checked_agrees (t : Transaction) (att : Attachment)
    (h1 : ∀ d, parse_date_tz t.date = some d → d.utcOffset = none)
    (h2 : ∀ d, parse_date_tz (pyOr (pyOr (attData att).invoicing_date
        (attData att).receiving_date) (attData att).due_date) = some d →
        d.utcOffset = none) :
    date_score_checked t att = Except.ok (date_score t att) := by
  unfold date_score_checked date_score get_transaction_date get_attachment_date
  dsimp only
  have e1 := parse_date_eq_tz t.date
  have e2 := parse_date_eq_tz (pyOr (pyOr (attData att).invoicing_date
      (attData att).receiving_date) (attData att).due_date)
  cases hx : parse_date_tz t.date with
  | none =>
    rw [hx] at e1
    dsimp only at e1
    rw [e1]
  | some x =>
    have hoff1 := h1 x hx
    rw [hx] at e1
    dsimp only at e1
    rw [if_pos hoff1] at e1
    cases hy : parse_date_tz (pyOr (pyOr (attData att).invoicing_date
        (attData att).receiving_date) (attData att).due_date) with
    | none =>
      rw [hy] at e2
      dsimp only at e2
      rw [e1, e2]
    | some y =>
      have hoff2 := h2 y hy
      rw [hy] at e2
      dsimp only at e2
      rw [if_pos hoff2] at e2
      rw [e1, e2]
      unfold pySubDatetime
      dsimp only
      rw [hoff1, hoff2]

/-- C10, code bug. On contract-conforming input the program is not total:
`fromisoformat` parses `"2024-01-05T00:00:00+02:00"` to an aware datetime
while `"2024-01-05"` stays naive, and the unguarded subtraction in the
source `date_score` then raises `TypeError` — nothing catches it, so
`match_score`, `find_attachment` and `find_transaction` raise too — where
the claim and the spec promise degradation to 0.0.  On the naive-date
fragment the scorers do behave as claimed. -/
theorem c10_typeerror_on_aware_date :
    date_score_checked { date := some "2024-01-05" }
        { data := some { invoicing_date := some "2024-01-05T00:00:00+02:00" } }
      = Except.error "TypeError"
    ∧ parse_date_tz (some "2024-01-05")
      = some { days := 738890, utcOffset := none }
    ∧ parse_date_tz (some "2024-01-05T00:00:00+02:00")
      = some { days := 738890, utcOffset := some (mkRat 7200 86400) } := by
  refine ⟨rfl, by decide, by decide⟩
